import Mathlib

/-!
Verification development for the `ng` expression-parsing core
(`src/lang/expr/expr.go`): the expression AST with its s-expression
serializers, and the precedence-climbing recursive-descent parser
(`ParseExpr` and its helpers) in the parser part of the file.

The external scanner (`Scanner`, `Token.Precedence`, `Token.String`) and the
parser-package AST declarations are not part of the sources; those pieces are
modelled from the specification (each such definition carries a doc comment
starting with `Modelled from the spec:`).  Everything else is a direct
shallow embedding of the Go code: recursion is made total with an explicit
fuel parameter (`PRes.nofuel` marks fuel exhaustion), Go `panic` becomes
`PRes.panicked`, and a Go method that would dereference a nil receiver is
given result `Option.none`.
-/

/-- Modelled from the spec: the token kinds produced by the external scanner
(the `token` package is not under the sources).  The set is taken from the
operator list documented on `Binary`/`Unary` in `expr.go` plus the structural
tokens the parser inspects (`Comment`, `Identifier`, literals, brackets,
`Comma`, `Period`); `Unknown` is the scanner's token after end of input. -/
inductive Tok where
  | Unknown
  | Comment
  | Identifier
  | Int
  | Float
  | Imaginary
  | String
  | Add
  | Sub
  | Mul
  | Div
  | Rem
  | Pow
  | And
  | Or
  | Equal
  | NotEqual
  | Less
  | Greater
  | Not
  | LeftParen
  | RightParen
  | LeftBracket
  | LeftBrace
  | Comma
  | Period
deriving DecidableEq, Repr

/-- Modelled from the spec: the operator table (`Token.Precedence`, not under
the sources).  "given an operator token, return its precedence as a small
positive integer, or zero/none if the token is not a binary operator";
`"1 + 2 * 3"` parsing to `(Add 1 (Mul 2 3))` fixes `Mul`-class above
`Add`-class, with comparisons and logical operators below. -/
def tokPrecedence : Tok → Int
  | .Or => 1
  | .And => 2
  | .Equal | .NotEqual | .Less | .Greater => 3
  | .Add | .Sub => 4
  | .Mul | .Div | .Rem | .Pow => 5
  | _ => 0

/-- `Token.Precedence` in method position (`tokPrecedence` defined outside the
`Tok` namespace, whose `Int` constructor shadows Lean's `Int`). -/
def Tok.precedence := tokPrecedence

/-- Modelled from the spec: `Token.String` (not under the sources).  The
spec's serialization examples `(Add 1 (Mul 2 3))`, `(Sub (Sub 1 2) 3)`,
`(Mul (LeftParen (Add 1 2)) 3)` show a token printing as its name. -/
def tokString : Tok → String
  | .Unknown => "Unknown"
  | .Comment => "Comment"
  | .Identifier => "Identifier"
  | .Int => "Int"
  | .Float => "Float"
  | .Imaginary => "Imaginary"
  | .String => "String"
  | .Add => "Add"
  | .Sub => "Sub"
  | .Mul => "Mul"
  | .Div => "Div"
  | .Rem => "Rem"
  | .Pow => "Pow"
  | .And => "And"
  | .Or => "Or"
  | .Equal => "Equal"
  | .NotEqual => "NotEqual"
  | .Less => "Less"
  | .Greater => "Greater"
  | .Not => "Not"
  | .LeftParen => "LeftParen"
  | .RightParen => "RightParen"
  | .LeftBracket => "LeftBracket"
  | .LeftBrace => "LeftBrace"
  | .Comma => "Comma"
  | .Period => "Period"

/-- `Token.String` in method position (`tokString` defined outside the `Tok`
namespace, whose `String` constructor shadows Lean's `String`). -/
def Tok.str := tokString

/-- A scanner literal value: `interface{}` holding `string`, `*big.Int` or
`*big.Float` (`BasicLiteral.Value` in `expr.go`), possibly nil. -/
inductive Lit where
  | nilv
  | str (s : String)
  | intv (n : Int)
  | floatv (s : String)
deriving DecidableEq, Repr

/-- `%T` of a literal value (dynamic Go type name). -/
def Lit.typeName : Lit → String
  | .nilv => "<nil>"
  | .str _ => "string"
  | .intv _ => "*big.Int"
  | .floatv _ => "*big.Float"

/-- `%s` of a literal value. -/
def Lit.valStr : Lit → String
  | .nilv => "<nil>"
  | .str s => s
  | .intv n => toString n
  | .floatv s => s

/-- Scanner-level errors: the `io.EOF` sentinel, `io.ErrUnexpectedEOF`, or a
concrete lexer error with its message. -/
inductive SErr where
  | eof
  | unexpectedEof
  | lex (msg : String)
deriving DecidableEq, Repr

/-- Modelled from the spec: one output of the external scanner's `advance`
("current token kind, current literal value, byte offset, advance, and a
terminal error value"; "advance() → consumes current token, may record a
lexer-level error"). -/
structure ScanTok where
  tok : Tok
  lit : Lit := .nilv
  off : Nat := 0
  lerr : Option String := none
deriving DecidableEq, Repr

/-- Modelled from the spec: the token-source adapter state seen by the parser
(`p.s` in the Go code): pending outputs plus the current `Token`, `Literal`,
`Offset`, the last error `err`, and the current-rune indicator `r`
(`p.s.r > 0` means the source is not exhausted). -/
structure Scanner where
  toks : List ScanTok
  Token : Tok := .Unknown
  Literal : Lit := .nilv
  Offset : Nat := 0
  err : Option SErr := none
  r : Int := 0
deriving DecidableEq, Repr

/-- Scanner state after loading the pending token `t` (remaining pending
tokens `rest`): `r` becomes positive, a lexer error recorded by this advance
replaces the last error. -/
def loadTok (s : Scanner) (t : ScanTok) (rest : List ScanTok) : Scanner :=
  { s with toks := rest, Token := t.tok, Literal := t.lit, Offset := t.off,
           err := match t.lerr with | some m => some (.lex m) | none => s.err,
           r := 1 }

/-- Scanner state after advancing past the end of input: the token becomes
`Unknown`, `err` becomes the end-of-input sentinel (a previously recorded
lexer error is kept: "lastError() → the sentinel end of input or a concrete
lexer error") and `r` goes negative. -/
def exhaustS (s : Scanner) : Scanner :=
  { s with Token := .Unknown, err := some (s.err.getD .eof), r := -1 }

/-- Modelled from the spec: the state part of the scanner's `Next`
("advance() → consumes current token, may record a lexer-level error"). -/
def Scanner.NextS (s : Scanner) : Scanner :=
  match s.toks with
  | [] => exhaustS s
  | t :: rest => loadTok s t rest

/-- Modelled from the spec: the error result of the scanner's `Next` (the Go
`Next` returns an error: end of input, or the lexer error recorded by this
advance). -/
def Scanner.NextE (s : Scanner) : Option SErr :=
  match s.toks with
  | [] => some (s.err.getD .eof)
  | t :: _ => t.lerr.map .lex

/-- The loop of the parser's `next`: advance once, then keep advancing while
the current token is a comment.  The pending-token list is passed explicitly
(it always equals `s.toks`) so the recursion is structural. -/
def skipComments : List ScanTok → Scanner → Scanner
  | [], s => exhaustS s
  | t :: rest, s =>
      let s' := loadTok s t rest
      if t.tok = .Comment then skipComments rest s' else s'

/-- `p.next()` at the scanner level (`next` in `expr.go`): `s.Next()`, then
recurse while the loaded token is a `Comment`. -/
def pnextS (s : Scanner) : Scanner := skipComments s.toks s

/-- A recorded grammar-level error (`Error` in `expr.go`): byte offset plus
message. -/
structure PError where
  off : Nat
  msg : String
deriving DecidableEq, Repr

/-- Parser state (`parser` in `expr.go`): the scanner and the ordered list of
recorded errors. -/
structure PState where
  s : Scanner
  err : List PError := []
deriving DecidableEq, Repr

/-- `p.next()` (`expr.go`): advance the scanner, silently skipping comments. -/
def pnext (st : PState) : PState :=
  { st with s := pnextS st.s }

/-- `p.error(msg)` (`expr.go`): append an error carrying the scanner's current
offset, and return it. -/
def perror (st : PState) (msg : String) : PState × PError :=
  let e : PError := { off := st.s.Offset, msg := msg }
  ({ st with err := st.err ++ [e] }, e)

/-- `p.expect(t)` (`expr.go`): check the current token, recording an error if
it is not the expected one; the token is not consumed. -/
def pexpect (st : PState) (t : Tok) : PState × Bool :=
  if st.s.Token = t then (st, true)
  else ((perror st ("expected \"" ++ t.str ++ "\", found \"" ++ st.s.Token.str ++ "\"")).1, false)

/-- `p.expectCommaOr(otherwise, msg)` (`expr.go`). -/
def expectCommaOr (st : PState) (otherwise : Tok) (msg : String) : PState × Bool :=
  if st.s.Token = .Comma then (st, true)
  else if st.s.Token ≠ otherwise then
    ((perror st ("missing ',' in " ++ msg ++ " (got " ++ st.s.Token.str ++ ")")).1, true)
  else (st, false)

/-- An error value carried by a `Bad` node: either a scanner error
(`&BadExpr{Error: p.s.err}`) or a recorded parse error
(`&BadExpr{p.error(...)}`). -/
inductive ErrV where
  | sErr (e : SErr)
  | pErr (e : PError)
deriving DecidableEq, Repr

/-- `FuncLiteral.Body`: an opaque payload that may or may not support
serialization (`interface { Sexp() string }` assertion in `expr.go`). -/
inductive BodyV where
  | withSexp (s : String)
  | withoutSexp (tyName : String)
deriving DecidableEq, Repr

/-- An opaque `tipe.Type` payload: only its serialization is relevant
(`tipeSexp` calls `t.Sexp()`). -/
structure Tipe where
  sexpStr : String
deriving DecidableEq, Repr

/-- The expression AST of `expr.go`.  A Go `Expr` interface field is
`Option Expr` (`none` is the nil interface).  A typed-but-nil pointer boxed in
the interface is a distinct Go value, so each of the eleven variants also has
an explicit `...Nil` constructor standing for the nil `*T` receiver.
`Selector.Right` has static type `*Ident`, kept as `Option String`; the two
`Range` struct values of `TableIndex` are flattened into their six fields. -/
inductive Expr where
  | binary (op : Tok) (left right : Option Expr)
  | binaryNil
  | unary (op : Tok) (sub : Option Expr)
  | unaryNil
  | bad (err : Option ErrV)
  | badNil
  | selector (left : Option Expr) (right : Option String)
  | selectorNil
  | basicLit (value : Lit)
  | basicLitNil
  | funcLit (name recvName : String) (ptrRecv : Bool) (ty : Option Tipe) (body : Option BodyV)
  | funcLitNil
  | compLit (ty : Option Tipe) (names : List String) (elements : List (Option Expr))
  | compLitNil
  | tableLit (ty : Option Tipe) (colNames : List (Option Expr)) (rows : List (List (Option Expr)))
  | tableLitNil
  | ident (name : String)
  | identNil
  | call (fn : Option Expr) (args : List (Option Expr))
  | callNil
  | tableIndex (sub : Option Expr) (colNames : List String)
      (colsStart colsEnd colsExact rowsStart rowsEnd rowsExact : Option Expr)
  | tableIndexNil

/-- Result of running an embedded parser function: a value, a Go `panic`
(the parser's "TODO" constructs), or fuel exhaustion (the embedding artifact
marking a computation that did not finish within the given fuel). -/
inductive PRes (α : Type) where
  | ok (a : α)
  | panicked (msg : String)
  | nofuel
deriving DecidableEq, Repr

/-- `ParseExpr`'s returned error: an aggregated grammar-error list
(`Errors(p.err)`) or an error propagated from the scanner. -/
inductive RetErr where
  | fromScanner (e : SErr)
  | grammar (errs : List PError)
deriving DecidableEq, Repr

/-- `parseIdent` (`expr.go`).  The Go type assertion `p.s.Literal.(string)`
panics when the literal is not a string. -/
def parseIdent (st : PState) : PRes (Expr × PState) :=
  let (st, met) := pexpect st .Identifier
  if met then
    match st.s.Literal with
    | .str name => .ok (.ident name, pnext st)
    | _ => .panicked "interface conversion: interface is not string"
  else .ok (.ident "_", pnext st)

mutual

/-- `parseExpr` (`expr.go`): parse at minimum precedence 1. -/
def parseExpr : Nat → Bool → PState → PRes (Expr × PState)
  | 0, _, _ => .nofuel
  | fuel + 1, lhs, st => parseBinaryExpr fuel lhs 1 st
termination_by structural fuel _ _ => fuel

/-- `parseBinaryExpr` (`expr.go`): one unary expression, then the
precedence-climbing loop (`binLevels`/`binRun` below model its two nested
`for` loops). -/
def parseBinaryExpr : Nat → Bool → Int → PState → PRes (Expr × PState)
  | 0, _, _, _ => .nofuel
  | fuel + 1, lhs, minPrec, st =>
    match parseUnaryExpr fuel lhs st with
    | .ok (x, st) => binLevels fuel x st.s.Token.precedence minPrec st
    | .panicked m => .panicked m
    | .nofuel => .nofuel
termination_by structural fuel _ _ _ => fuel

/-- The outer loop of `parseBinaryExpr`:
`for prec := p.s.Token.Precedence(); prec >= minPrec; prec--`. -/
def binLevels : Nat → Expr → Int → Int → PState → PRes (Expr × PState)
  | 0, _, _, _, _ => .nofuel
  | fuel + 1, x, prec, minPrec, st =>
    if prec ≥ minPrec then
      match binRun fuel x prec st with
      | .ok (x, st) => binLevels fuel x (prec - 1) minPrec st
      | .panicked m => .panicked m
      | .nofuel => .nofuel
    else .ok (x, st)
termination_by structural fuel _ _ _ _ => fuel

/-- The inner loop of `parseBinaryExpr`: consume a run of operators whose
precedence is exactly `prec`, parsing each right operand at `prec + 1`. -/
def binRun : Nat → Expr → Int → PState → PRes (Expr × PState)
  | 0, _, _, _ => .nofuel
  | fuel + 1, x, prec, st =>
    let op := st.s.Token
    if op.precedence ≠ prec then .ok (x, st)
    else
      match parseBinaryExpr fuel false (prec + 1) (pnext st) with
      | .ok (y, st) => binRun fuel (.binary op (some x) (some y)) prec st
      | .panicked m => .panicked m
      | .nofuel => .nofuel
termination_by structural fuel _ _ _ => fuel

/-- `parseUnaryExpr` (`expr.go`). -/
def parseUnaryExpr : Nat → Bool → PState → PRes (Expr × PState)
  | 0, _, _ => .nofuel
  | fuel + 1, lhs, st =>
    match st.s.Token with
    | .Add | .Sub | .Not =>
      let op := st.s.Token
      let st1 := pnext st
      match st1.s.err with
      | some e => .ok (.bad (some (.sErr e)), st1)
      | none =>
        match parseUnaryExpr fuel false st1 with
        | .ok (x, st2) => .ok (.unary op (some x), st2)
        | .panicked m => .panicked m
        | .nofuel => .nofuel
    | .Mul =>
      let st1 := pnext st
      match parseUnaryExpr fuel false st1 with
      | .ok (x, st2) => .ok (.unary .Mul (some x), st2)
      | .panicked m => .panicked m
      | .nofuel => .nofuel
    | _ => parsePrimaryExpr fuel lhs st
termination_by structural fuel _ _ => fuel

/-- `parsePrimaryExpr` (`expr.go`): an operand followed by a suffix.  Every
branch of the Go `for`/`switch` either returns or panics, so the loop never
iterates. -/
def parsePrimaryExpr : Nat → Bool → PState → PRes (Expr × PState)
  | 0, _, _ => .nofuel
  | fuel + 1, lhs, st =>
    match parseOperand fuel lhs st with
    | .ok (x, st) =>
      match st.s.Token with
      | .Period =>
        let st1 := pnext st
        match st1.s.Token with
        | .Identifier => .panicked "TODO parse selector"
        | .LeftParen => .panicked "TODO parse type assertion"
        | _ => .panicked "TODO expect selector type assertion"
      | .LeftBracket => .panicked "TODO array index"
      | .LeftParen =>
        match parseArgs fuel st with
        | .ok (args, st2) => .ok (.call (some x) args, st2)
        | .panicked m => .panicked m
        | .nofuel => .nofuel
      | .LeftBrace => .panicked "TODO could be composite literal"
      | _ => .ok (x, st)
    | .panicked m => .panicked m
    | .nofuel => .nofuel
termination_by structural fuel _ _ => fuel

/-- `parseOperand` (`expr.go`).  Note that in the `LeftParen` case the source
calls `p.expect(RightParen)` without a following `p.next()`, so the closing
parenthesis is checked but not consumed. -/
def parseOperand : Nat → Bool → PState → PRes (Expr × PState)
  | 0, _, _ => .nofuel
  | fuel + 1, lhs, st =>
    match st.s.Token with
    | .Identifier => parseIdent st
    | .Int | .Float | .Imaginary | .String =>
      let x := Expr.basicLit st.s.Literal
      .ok (x, pnext st)
    | .LeftParen =>
      match parseExpr fuel false (pnext st) with
      | .ok (e, st2) =>
        let (st3, _) := pexpect st2 .RightParen
        .ok (.unary .LeftParen (some e), st3)
      | .panicked m => .panicked m
      | .nofuel => .nofuel
    | _ =>
      let st1 := pnext st
      let (st2, e) := perror st1 "expected operand"
      .ok (.bad (some (.pErr e)), st2)
termination_by structural fuel _ _ => fuel

/-- `parseArgs` (`expr.go`): opening parenthesis, the argument loop
(`argsLoop` below), closing parenthesis. -/
def parseArgs : Nat → PState → PRes (List (Option Expr) × PState)
  | 0, _ => .nofuel
  | fuel + 1, st =>
    let (st, _) := pexpect st .LeftParen
    let st := pnext st
    match argsLoop fuel [] st with
    | .ok (args, st) =>
      let (st, _) := pexpect st .RightParen
      .ok (args, pnext st)
    | .panicked m => .panicked m
    | .nofuel => .nofuel
termination_by structural fuel _ => fuel

/-- The `for p.s.Token != RightParen && p.s.r > 0` loop of `parseArgs`. -/
def argsLoop : Nat → List (Option Expr) → PState → PRes (List (Option Expr) × PState)
  | 0, _, _ => .nofuel
  | fuel + 1, args, st =>
    if st.s.Token ≠ .RightParen ∧ st.s.r > 0 then
      match parseExpr fuel false st with
      | .ok (e, st) =>
        let args := args ++ [some e]
        let (st, cont) := expectCommaOr st .RightParen "arguments"
        if cont then argsLoop fuel args (pnext st)
        else .ok (args, st)
      | .panicked m => .panicked m
      | .nofuel => .nofuel
    else .ok (args, st)
termination_by structural fuel _ _ => fuel

end

/-- `ParseExpr` (`expr.go`): load the first token (an immediate end of input
becomes `io.ErrUnexpectedEOF`), parse one expression, aggregate recorded
errors, and otherwise surface a non-EOF scanner error. -/
def ParseExpr (fuel : Nat) (toks : List ScanTok) : PRes (Option Expr × Option RetErr) :=
  let s0 : Scanner := { toks := toks }
  match s0.NextE with
  | some er =>
    let er := if er = .eof then SErr.unexpectedEof else er
    .ok (none, some (.fromScanner er))
  | none =>
    match parseExpr fuel false { s := s0.NextS, err := [] } with
    | .ok (x, st) =>
      let err1 : Option RetErr :=
        if st.err.length > 0 then some (.grammar st.err) else none
      let err2 : Option RetErr :=
        if err1 = none ∧ st.s.err ≠ some .eof then st.s.err.map .fromScanner else err1
      .ok (some x, err2)
    | .panicked m => .panicked m
    | .nofuel => .nofuel

/-- `%v` of a `Bad` node's carried error (`Error.Error()` in `expr.go` for a
recorded parse error; Go's standard rendering for the scanner sentinels). -/
def ErrV.str : ErrV → String
  | .sErr .eof => "EOF"
  | .sErr .unexpectedEof => "unexpected EOF"
  | .sErr (.lex m) => m
  | .pErr e => "numgrad: parser: " ++ e.msg ++ " (off " ++ toString e.off ++ ")"

/-- `%v` of the possibly-nil error field of a `Bad` node. -/
def errOptStr : Option ErrV → String
  | none => "<nil>"
  | some e => e.str

/-- `tipeSexp` (`expr.go`): nil type renders as `niltype`, otherwise the
type's own serialization. -/
def tipeSexp : Option Tipe → String
  | none => "niltype"
  | some t => t.sexpStr

/-- `exprSexp(e.Right)` for `Selector.Right`: the field has static type
`*Ident`, so boxing it in the `Expr` interface never yields a nil interface;
a nil `*Ident` hits `(*Ident).Sexp`'s nil-receiver check. -/
def identPtrSexp : Option String → String
  | none => "nilident"
  | some n => n

/-- `strings.Join(names, " ")` as used by `(*CompLiteral).Sexp`. -/
def joinSpace (l : List String) : String := String.intercalate " " l

/-- The local `rangeSexp` closure of `(*TableIndex).Sexp` (`expr.go`), over a
flattened `Range` value whose components are already serialized: the outer
`Option` is the field's nil-ness (`r.Start != nil` tests), the inner one is
panic propagation from the component's own `Sexp`. -/
def rangeSexpStr (startS stopS exactS : Option (Option String)) : Option String :=
  let rsO : Option String :=
    if startS.isSome ∨ stopS.isSome then
      match (match startS with | none => some "" | some s => s : Option String) with
      | none => none
      | some a =>
        match (match stopS with | none => some "" | some s => s : Option String) with
        | none => none
        | some b => some (a ++ ":" ++ b)
    else some ""
  match rsO with
  | none => none
  | some rs =>
    match exactS with
    | none => some ("(" ++ rs ++ "" ++ ")")
    | some es =>
      match es with
      | none => none
      | some ex =>
          let rs := if rs ≠ "" then rs ++ " " else rs
          some ("(" ++ rs ++ ex ++ ")")

/-- `FuncLiteral.Sexp`'s body rendering (`expr.go`). -/
def bodySexp : Option BodyV → String
  | none => "nilbody"
  | some (.withSexp s) => s
  | some (.withoutSexp tyName) => "badbody:" ++ tyName

mutual

/-- The `Sexp` methods of `expr.go`, merged over the closed variant set.  The
result is `none` exactly when the Go code would panic: `(*Bad).Sexp`,
`(*FuncLiteral).Sexp`, `(*CompLiteral).Sexp`, `(*TableLiteral).Sexp` and
`(*TableIndex).Sexp` have no nil-receiver check and dereference their
receiver, while the other six variants return a `nil<kind>` sentinel. -/
def Expr.sexp : Expr → Option String
  | .binary op l r =>
      match exprSexp l, exprSexp r with
      | some ls, some rs => some ("(" ++ op.str ++ " " ++ ls ++ " " ++ rs ++ ")")
      | _, _ => none
  | .binaryNil => some "nilbin"
  | .unary op e =>
      match exprSexp e with
      | some es => some ("(" ++ op.str ++ " " ++ es ++ ")")
      | none => none
  | .unaryNil => some "nilunary"
  | .bad err => some ("(bad " ++ errOptStr err ++ ")")
  | .badNil => none
  | .selector l r =>
      match exprSexp l with
      | some ls => some ("(sel " ++ ls ++ " " ++ identPtrSexp r ++ ")")
      | none => none
  | .selectorNil => some "nilsel"
  | .basicLit v => some ("(lit " ++ v.typeName ++ " " ++ v.valStr ++ ")")
  | .basicLitNil => some "nillit"
  | .funcLit name recvName ptrRecv ty body =>
      let bodyS := bodySexp body
      if recvName ≠ "" then
        let pointer := if ptrRecv then "*" else ""
        some ("(method (" ++ pointer ++ recvName ++ ") " ++ name ++ " " ++
              tipeSexp ty ++ " " ++ bodyS ++ ")")
      else
        some ("(func " ++ name ++ " " ++ tipeSexp ty ++ " " ++ bodyS ++ ")")
  | .funcLitNil => none
  | .compLit ty names elements =>
      let namesS := if names.length > 0 then "(" ++ joinSpace names ++ ")" else ""
      match exprsStr elements with
      | some es => some ("(comp " ++ tipeSexp ty ++ " " ++ namesS ++ " " ++ es ++ ")")
      | none => none
  | .compLitNil => none
  | .tableLit ty colNames rows =>
      match exprsStr colNames, rowsAcc rows with
      | some cs, some rws =>
          let rws := if rws ≠ "" then " (" ++ rws.drop 1 ++ ")" else ""
          some ("(table " ++ tipeSexp ty ++ " " ++ cs ++ rws ++ ")")
      | _, _ => none
  | .tableLitNil => none
  | .ident n => some n
  | .identNil => some "nilident"
  | .call fn args =>
      match exprSexp fn, exprsStr args with
      | some fs, some args' => some ("(call " ++ fs ++ " " ++ args' ++ ")")
      | _, _ => none
  | .callNil => some "nilcall"
  | .tableIndex sub colNames c1 c2 c3 r1 r2 r3 =>
      let names := String.intercalate "\"|\"" colNames
      let names := if names ≠ "" then " \"" ++ names ++ "\"" else ""
      match exprSexp sub, rangeSexpStr (liftSexp c1) (liftSexp c2) (liftSexp c3),
            rangeSexpStr (liftSexp r1) (liftSexp r2) (liftSexp r3) with
      | some es, some colsS, some rowsS =>
          some ("(tableindex " ++ es ++ names ++ " " ++ colsS ++ " " ++ rowsS)
      | _, _, _ => none
  | .tableIndexNil => none
termination_by structural e => e

/-- One `Range` component of `(*TableIndex).Sexp`: the `r.X != nil` test
(outer `Option`) paired with the component's own serialization. -/
def liftSexp : Option Expr → Option (Option String)
  | none => none
  | some e => some e.sexp
termination_by structural o => o

/-- `exprSexp` (`expr.go`): a nil interface value renders as `nilexpr`. -/
def exprSexp : Option Expr → Option String
  | none => some "nilexpr"
  | some e => e.sexp
termination_by structural o => o

/-- `exprsStr` (`expr.go`): space-separated serializations. -/
def exprsStr : List (Option Expr) → Option String
  | [] => some ""
  | [a] => exprSexp a
  | a :: rest =>
      match exprSexp a, exprsStr rest with
      | some s, some rs => some (s ++ " " ++ rs)
      | _, _ => none
termination_by structural l => l

/-- The row loop of `(*TableLiteral).Sexp`: `rows += " " + exprsStr(row)`. -/
def rowsAcc : List (List (Option Expr)) → Option String
  | [] => some ""
  | row :: rest =>
      match exprsStr row, rowsAcc rest with
      | some r, some rs => some (" " ++ r ++ rs)
      | _, _ => none
termination_by structural l => l

end

mutual

/-- Modelled from the spec: the parser package's own AST serialization (the
`BinaryExpr`/`UnaryExpr`/`BadExpr`/`CallExpr`/`BasicLiteral`/`Ident` types and
their `Sexp` methods are not under the sources; only their construction sites
in `expr.go` are).  Section 8's examples fix the format: `(OP left right)` for
binary, `(OP operand)` for unary, `(call func arg1 arg2 …)` for calls, a bare
name for an identifier and a bare value for a literal (`"x"` serializes to
exactly `x`, `"1 - 2 - 3"` to `(Sub (Sub 1 2) 3)`), `(bad err)` for a `Bad`
node.  Variants the parser never constructs are mapped to a fixed marker. -/
def sexpM : Expr → String
  | .binary op l r => "(" ++ op.str ++ " " ++ sexpMO l ++ " " ++ sexpMO r ++ ")"
  | .unary op e => "(" ++ op.str ++ " " ++ sexpMO e ++ ")"
  | .bad e => "(bad " ++ errOptStr e ++ ")"
  | .basicLit v => v.valStr
  | .ident n => n
  | .call fn args => "(call " ++ sexpMO fn ++ " " ++ sexpMList args ++ ")"
  | _ => "unsupported"
termination_by structural e => e

/-- Modelled from the spec: serialization of a possibly-nil parser-package
node (`nilexpr` for a nil interface, as in `exprSexp`). -/
def sexpMO : Option Expr → String
  | none => "nilexpr"
  | some e => sexpM e
termination_by structural o => o

/-- Modelled from the spec: space-separated argument serializations, as in
`exprsStr` (so `"f()"` serializes to `(call f )`). -/
def sexpMList : List (Option Expr) → String
  | [] => ""
  | [a] => sexpMO a
  | a :: rest => sexpMO a ++ " " ++ sexpMList rest
termination_by structural l => l

end

/-- The initial parser state of `ParseExpr` after loading the first token of
the stream `toks`. -/
def pinit (toks : List ScanTok) : PState :=
  { s := Scanner.NextS { toks := toks }, err := [] }

/-- Token stream of `"1 - 2 - 3"`. -/
def c1TokensSub : List ScanTok :=
  [⟨.Int, .intv 1, 0, none⟩, ⟨.Sub, .nilv, 2, none⟩, ⟨.Int, .intv 2, 4, none⟩,
   ⟨.Sub, .nilv, 6, none⟩, ⟨.Int, .intv 3, 8, none⟩]

/-- The tree `ParseExpr` produces for `"1 - 2 - 3"`. -/
def c1TreeSub : Expr :=
  .binary .Sub (some (.binary .Sub (some (.basicLit (.intv 1)))
      (some (.basicLit (.intv 2))))) (some (.basicLit (.intv 3)))

/-- Token stream of `"1 + 2 * 3"`. -/
def c1TokensAddMul : List ScanTok :=
  [⟨.Int, .intv 1, 0, none⟩, ⟨.Add, .nilv, 2, none⟩, ⟨.Int, .intv 2, 4, none⟩,
   ⟨.Mul, .nilv, 6, none⟩, ⟨.Int, .intv 3, 8, none⟩]

/-- The tree `ParseExpr` produces for `"1 + 2 * 3"`. -/
def c1TreeAddMul : Expr :=
  .binary .Add (some (.basicLit (.intv 1)))
    (some (.binary .Mul (some (.basicLit (.intv 2))) (some (.basicLit (.intv 3)))))

set_option maxHeartbeats 1000000 in
/-- Precedence-climbing invariants of `parseBinaryExpr`/`binLevels`/`binRun`,
by induction on fuel: when a call at minimum precedence at least 1 returns,
the current token's precedence is below the minimum (for `binRun`, below the
level being consumed). -/
theorem bin_inv (fuel : Nat) :
    (∀ lhs minPrec st x st', 1 ≤ minPrec →
       parseBinaryExpr fuel lhs minPrec st = .ok (x, st') → st'.s.Token.precedence < minPrec)
  ∧ (∀ x prec minPrec st y st', st.s.Token.precedence ≤ prec → 1 ≤ minPrec →
       binLevels fuel x prec minPrec st = .ok (y, st') → st'.s.Token.precedence < minPrec)
  ∧ (∀ x prec st y st', st.s.Token.precedence ≤ prec → 1 ≤ prec →
       binRun fuel x prec st = .ok (y, st') → st'.s.Token.precedence < prec) := by
  induction fuel with
  | zero => refine ⟨?_, ?_, ?_⟩ <;> intro _ _ _ _ _ <;> simp [parseBinaryExpr, binLevels, binRun]
  | succ f ih =>
    obtain ⟨ihP, ihQ, ihR⟩ := ih
    refine ⟨?_, ?_, ?_⟩
    · intro lhs minPrec st x st' hmin h
      rw [parseBinaryExpr] at h
      split at h
      · next x1 st1 heq => exact ihQ x1 _ minPrec st1 x st' le_rfl hmin h
      · exact absurd h (by simp)
      · exact absurd h (by simp)
    · intro x prec minPrec st y st' hle hmin h
      rw [binLevels] at h
      split at h
      · next hp =>
        split at h
        · next x1 st1 heq =>
          have h1 : st1.s.Token.precedence < prec :=
            ihR x prec st x1 st1 hle (le_trans hmin hp) heq
          exact ihQ x1 (prec - 1) minPrec st1 y st' (by omega) hmin h
        · exact absurd h (by simp)
        · exact absurd h (by simp)
      · next hp =>
        cases h
        omega
    · intro x prec st y st' hle h1p h
      rw [binRun] at h
      split at h
      · next hne => cases h; omega
      · next hne =>
        push_neg at hne
        split at h
        · next y1 st1 heq =>
          have h2 : st1.s.Token.precedence < prec + 1 :=
            ihP false (prec + 1) (pnext st) y1 st1 (by omega) heq
          exact ihR _ prec st1 y st' (by omega) h1p h
        · exact absurd h (by simp)
        · exact absurd h (by simp)

/-- C1: binary operators are parsed by precedence climbing with left
associativity: `"1 - 2 - 3"` parses with no error to a tree serializing as
`(Sub (Sub 1 2) 3)`; `"1 + 2 * 3"` parses with no error to a tree serializing
as `(Add 1 (Mul 2 3))`; when the current operator's precedence equals the
level being consumed, the right-hand operand is parsed at minimum precedence
one above that level (`binRun`'s consuming branch); and whenever
`parseBinaryExpr` returns at a minimum precedence of at least 1, the current
token's precedence is below that minimum, i.e. an operator below the current
minimum is left unconsumed. -/
theorem c1_precedence_climbing :
    (ParseExpr 32 c1TokensSub = .ok (some c1TreeSub, none) ∧
       sexpM c1TreeSub = "(Sub (Sub 1 2) 3)") ∧
    (ParseExpr 32 c1TokensAddMul = .ok (some c1TreeAddMul, none) ∧
       sexpM c1TreeAddMul = "(Add 1 (Mul 2 3))") ∧
    (∀ fuel x prec st, st.s.Token.precedence = prec →
       binRun (fuel + 1) x prec st =
         match parseBinaryExpr fuel false (prec + 1) (pnext st) with
         | .ok (y, st1) => binRun fuel (.binary st.s.Token (some x) (some y)) prec st1
         | .panicked m => .panicked m
         | .nofuel => .nofuel) ∧
    (∀ fuel lhs minPrec st x st', 1 ≤ minPrec →
       parseBinaryExpr fuel lhs minPrec st = .ok (x, st') →
       st'.s.Token.precedence < minPrec) := by
  refine ⟨⟨rfl, ?_⟩, ⟨rfl, ?_⟩, ?_, ?_⟩
  · simp only [sexpM, sexpMO, sexpMList, c1TreeSub, Tok.str, tokString, Lit.valStr]
    rfl
  · simp only [sexpM, sexpMO, sexpMList, c1TreeAddMul, Tok.str, tokString, Lit.valStr]
    rfl
  · intro fuel x prec st h
    rw [binRun]
    simp [h]
  · exact fun fuel lhs minPrec st x st' => (bin_inv fuel).1 lhs minPrec st x st'

/-- Witness for C1: the precedence-bound conjunct applied to the concrete
parse of `"1 - 2 - 3"` at minimum precedence 1: the final state's current
token (`Unknown`, after end of input) has precedence below 1. -/
theorem c1_precedence_climbing_witness :
    parseBinaryExpr 31 false 1 (pinit c1TokensSub) =
      .ok (c1TreeSub, ⟨⟨[], .Unknown, .intv 3, 8, some .eof, -1⟩, []⟩) ∧
    (⟨⟨[], .Unknown, .intv 3, 8, some .eof, -1⟩, []⟩ : PState).s.Token.precedence < 1 :=
  ⟨rfl, c1_precedence_climbing.2.2.2 31 false 1 (pinit c1TokensSub) c1TreeSub
    ⟨⟨[], .Unknown, .intv 3, 8, some .eof, -1⟩, []⟩ (by norm_num) rfl⟩

/-- Token stream of `"(1 + 2) * 3"`. -/
def c2Tokens : List ScanTok :=
  [⟨.LeftParen, .nilv, 0, none⟩, ⟨.Int, .intv 1, 1, none⟩, ⟨.Add, .nilv, 3, none⟩,
   ⟨.Int, .intv 2, 5, none⟩, ⟨.RightParen, .nilv, 6, none⟩, ⟨.Mul, .nilv, 8, none⟩,
   ⟨.Int, .intv 3, 10, none⟩]

/-- The tree `ParseExpr` actually produces for `"(1 + 2) * 3"`. -/
def c2Tree : Expr :=
  .unary .LeftParen (some (.binary .Add (some (.basicLit (.intv 1)))
      (some (.basicLit (.intv 2)))))

/-- The parser state at which the parse of `"(1 + 2) * 3"` stops: the closing
parenthesis is still the current token and `* 3` is still pending. -/
def c2FinalState : PState :=
  { s := { toks := [⟨.Mul, .nilv, 8, none⟩, ⟨.Int, .intv 3, 10, none⟩],
           Token := .RightParen, Literal := .nilv, Offset := 6, err := none, r := 1 },
    err := [] }

/-- C2: evaluation of the code at the failing input `"(1 + 2) * 3"`.  The
`LeftParen` case of `parseOperand` calls `p.expect(RightParen)` but never
`p.next()`, so the closing parenthesis is checked and left as the current
token; the suffix `* 3` is silently dropped and the whole input parses with
no error to `(LeftParen (Add 1 2))` instead of the documented
`(Mul (LeftParen (Add 1 2)) 3)`. -/
theorem c2_paren_close_not_consumed :
    ParseExpr 32 c2Tokens = .ok (some c2Tree, none) ∧
    sexpM c2Tree = "(LeftParen (Add 1 2))" ∧
    parseExpr 32 false (pinit c2Tokens) = .ok (c2Tree, c2FinalState) ∧
    c2FinalState.s.Token = .RightParen ∧
    c2FinalState.s.toks = [⟨.Mul, .nilv, 8, none⟩, ⟨.Int, .intv 3, 10, none⟩] ∧
    "(LeftParen (Add 1 2))" ≠ "(Mul (LeftParen (Add 1 2)) 3)" := by
  refine ⟨rfl, ?_, rfl, rfl, rfl, by decide⟩
  simp only [sexpM, sexpMO, sexpMList, c2Tree, Tok.str, tokString, Lit.valStr]
  rfl

/-- C3: on empty input, `ParseExpr` returns a nil tree together with the
`unexpected end of input` condition, for every fuel (so it neither panics nor
runs out of fuel), and that condition is distinct from the ordinary
end-of-input sentinel. -/
theorem c3_empty_input :
    (∀ fuel, ParseExpr fuel [] = .ok (none, some (.fromScanner .unexpectedEof))) ∧
    SErr.unexpectedEof ≠ SErr.eof :=
  ⟨fun _ => rfl, by decide⟩

/-- Token stream of `"1 2"`: a complete expression followed by a trailing
token. -/
def c5Tokens : List ScanTok :=
  [⟨.Int, .intv 1, 0, none⟩, ⟨.Int, .intv 2, 2, none⟩]

/-- The parser state at which the parse of `"1 2"` stops: the trailing `2` is
the current token and the scanner has recorded no error. -/
def c5FinalState : PState :=
  { s := { toks := [], Token := .Int, Literal := .intv 2, Offset := 2, err := none, r := 1 },
    err := [] }

/-- C5 counterexample: on `"1 2"` the parse records no grammar error, stops
with the trailing token `2` still current and the scanner's last error nil,
and `ParseExpr` returns no error at all — the trailing-token condition is not
surfaced as the returned error. -/
theorem c5_trailing_token_not_surfaced :
    ParseExpr 32 c5Tokens = .ok (some (.basicLit (.intv 1)), none) ∧
    parseExpr 32 false (pinit c5Tokens) = .ok (.basicLit (.intv 1), c5FinalState) ∧
    c5FinalState.s.Token = .Int ∧ c5FinalState.s.toks = [] ∧
    c5FinalState.s.err = none ∧ c5FinalState.err = [] :=
  ⟨rfl, rfl, rfl, rfl, rfl, rfl⟩

/-- C5 (amended): when parsing proceeds past the entry point, recorded
grammar errors are aggregated into the returned error; only when none were
recorded is the stream-cleanliness check consulted, and what it surfaces is
the scanner's last error whenever that is not the EOF sentinel — for trailing
tokens with a clean lexer the scanner's last error is nil, so no error is
returned. -/
theorem c5_error_aggregation :
    ∀ fuel t rest x st', t.lerr = none →
      parseExpr fuel false (pinit (t :: rest)) = .ok (x, st') →
      ParseExpr fuel (t :: rest) = .ok (some x,
        if st'.err.length > 0 then some (.grammar st'.err)
        else if st'.s.err ≠ some .eof then st'.s.err.map .fromScanner else none) := by
  intro fuel t rest x st' hl hp
  rw [ParseExpr]
  simp only [Scanner.NextE, hl, Option.map_none]
  rw [show ({ toks := t :: rest } : Scanner).NextS = (pinit (t :: rest)).s from rfl]
  rw [show ({ s := (pinit (t :: rest)).s, err := [] } : PState) = pinit (t :: rest) from rfl]
  rw [hp]
  by_cases he : st'.err.length > 0
  · simp [he]
  · by_cases hs : st'.s.err ≠ some SErr.eof <;> simp [he, hs]

/-- Witness for C5 (amended), at the concrete input `"1 2"`: no grammar error
was recorded and the scanner's last error is nil, so the returned error is
`none`. -/
theorem c5_error_aggregation_witness :
    ParseExpr 32 c5Tokens = .ok (some (.basicLit (.intv 1)), none) := by
  have h := c5_error_aggregation 32 ⟨.Int, .intv 1, 0, none⟩ [⟨.Int, .intv 2, 2, none⟩]
    (.basicLit (.intv 1)) c5FinalState rfl rfl
  simpa [c5FinalState] using h

/-- No state the comment-skipping loop returns has a `Comment` current
token. -/
theorem skipComments_not_comment : ∀ (l : List ScanTok) (s : Scanner),
    (skipComments l s).Token ≠ .Comment := by
  intro l
  induction l with
  | nil => intro s; simp [skipComments, exhaustS]
  | cons t rest ih =>
    intro s
    rw [skipComments]
    by_cases h : t.tok = .Comment
    · simpa [h] using ih (loadTok s t rest)
    · simpa [h, loadTok] using h

/-- Token stream with a leading comment before `1`. -/
def c6Tokens : List ScanTok :=
  [⟨.Comment, .nilv, 0, none⟩, ⟨.Int, .intv 1, 2, none⟩]

/-- C6 counterexample: a leading comment is not invisible.  The entry point
loads the first token with the raw scanner advance (`p.s.Next()`), not the
comment-skipping `p.next()`, so on `Comment 1` the parser observes the
comment, records an `expected operand` error and produces a `Bad` node —
while the same input without the comment parses cleanly. -/
theorem c6_leading_comment_observed :
    ParseExpr 32 c6Tokens =
      .ok (some (.bad (some (.pErr ⟨2, "expected operand"⟩))),
           some (.grammar [⟨2, "expected operand"⟩])) ∧
    ParseExpr 32 [⟨.Int, .intv 1, 2, none⟩] = .ok (some (.basicLit (.intv 1)), none) :=
  ⟨rfl, rfl⟩

/-- C6 (amended): every advance performed through the parser's `next`
operation skips any run of comment tokens, so after any `p.next()` the
current token is never a comment; but the entry point's initial load is the
raw scanner advance, so an input whose first token is a comment is observed
and yields an `expected operand` error rather than parsing as if the comment
were absent. -/
theorem c6_next_skips_comments :
    (∀ s, (pnextS s).Token ≠ .Comment) ∧
    (∀ st, (pnext st).s.Token ≠ .Comment) ∧
    ParseExpr 32 c6Tokens =
      .ok (some (.bad (some (.pErr ⟨2, "expected operand"⟩))),
           some (.grammar [⟨2, "expected operand"⟩])) :=
  ⟨fun s => skipComments_not_comment s.toks s,
   fun st => skipComments_not_comment st.s.toks st.s, rfl⟩

/-- A `Bad` node test (the node kind the C7 claim asserts is produced). -/
def isBadNode : Expr → Bool
  | .bad _ => true
  | .badNil => true
  | _ => false

/-- Token stream: a prefix `*` (dereference) followed by a token at which the
scanner records a lexer error. -/
def c7MulTokens : List ScanTok :=
  [⟨.Mul, .nilv, 0, none⟩, ⟨.Unknown, .nilv, 1, some "illegal character"⟩]

/-- Token stream: a prefix `-` followed by a token at which the scanner
records a lexer error. -/
def c7SubTokens : List ScanTok :=
  [⟨.Sub, .nilv, 0, none⟩, ⟨.Unknown, .nilv, 1, some "illegal character"⟩]

/-- C7 counterexample: for the dereference/multiply operator the parser does
not produce a `Bad` node carrying the recorded lexer error — the `Mul` case
of `parseUnaryExpr` has no `p.s.err` check and recurses into the operand,
yielding a `Unary` node (here wrapping the operand's own `expected operand`
placeholder), not a `Bad` node. -/
theorem c7_mul_recurses_on_lexer_error :
    ParseExpr 32 c7MulTokens =
      .ok (some (.unary .Mul (some (.bad (some (.pErr ⟨1, "expected operand"⟩))))),
           some (.grammar [⟨1, "expected operand"⟩])) ∧
    isBadNode (.unary .Mul (some (.bad (some (.pErr ⟨1, "expected operand"⟩))))) = false ∧
    ParseExpr 32 c7SubTokens =
      .ok (some (.bad (some (.sErr (.lex "illegal character")))),
           some (.fromScanner (.lex "illegal character"))) :=
  ⟨rfl, rfl, rfl⟩

/-- C7 (amended): after consuming a prefix `+`, `-` or logical-not, a
recorded scanner error makes `parseUnaryExpr` return a `Bad` node carrying
exactly that error instead of recursing; the dereference/multiply prefix
operator performs no such check and recurses into its operand
unconditionally. -/
theorem c7_unary_lexer_error_check :
    (∀ fuel lhs st e, (st.s.Token = .Add ∨ st.s.Token = .Sub ∨ st.s.Token = .Not) →
       (pnext st).s.err = some e →
       parseUnaryExpr (fuel + 1) lhs st = .ok (.bad (some (.sErr e)), pnext st)) ∧
    (∀ fuel lhs st, st.s.Token = .Mul →
       parseUnaryExpr (fuel + 1) lhs st =
         match parseUnaryExpr fuel false (pnext st) with
         | .ok (x, st2) => .ok (.unary .Mul (some x), st2)
         | .panicked m => .panicked m
         | .nofuel => .nofuel) := by
  constructor
  · intro fuel lhs st e htok herr
    rw [parseUnaryExpr]
    rcases htok with h | h | h <;> rw [h] <;> simp only [herr]
  · intro fuel lhs st h
    rw [parseUnaryExpr]
    rw [h]

/-- Witness for C7 (amended): the `-` conjunct applied at the concrete stream
`c7SubTokens`, discharging both hypotheses there. -/
theorem c7_unary_lexer_error_check_witness :
    parseUnaryExpr 20 false (pinit c7SubTokens) =
      .ok (.bad (some (.sErr (.lex "illegal character"))), pnext (pinit c7SubTokens)) :=
  c7_unary_lexer_error_check.1 19 false (pinit c7SubTokens) (.lex "illegal character")
    (Or.inr (Or.inl rfl)) rfl

/-- Token stream of `"f(1, 2, 3)"`. -/
def c8CallTokens : List ScanTok :=
  [⟨.Identifier, .str "f", 0, none⟩, ⟨.LeftParen, .nilv, 1, none⟩,
   ⟨.Int, .intv 1, 2, none⟩, ⟨.Comma, .nilv, 3, none⟩, ⟨.Int, .intv 2, 5, none⟩,
   ⟨.Comma, .nilv, 6, none⟩, ⟨.Int, .intv 3, 8, none⟩, ⟨.RightParen, .nilv, 9, none⟩]

/-- The tree `ParseExpr` produces for `"f(1, 2, 3)"`. -/
def c8CallTree : Expr :=
  .call (some (.ident "f"))
    [some (.basicLit (.intv 1)), some (.basicLit (.intv 2)), some (.basicLit (.intv 3))]

/-- Token stream of `"f()"`. -/
def c8EmptyTokens : List ScanTok :=
  [⟨.Identifier, .str "f", 0, none⟩, ⟨.LeftParen, .nilv, 1, none⟩, ⟨.RightParen, .nilv, 2, none⟩]

/-- Token stream of `"f(1 2)"` (missing comma between arguments). -/
def c8MissingCommaTokens : List ScanTok :=
  [⟨.Identifier, .str "f", 0, none⟩, ⟨.LeftParen, .nilv, 1, none⟩,
   ⟨.Int, .intv 1, 2, none⟩, ⟨.Int, .intv 2, 4, none⟩, ⟨.RightParen, .nilv, 5, none⟩]

/-- C8: argument-list parsing.  `"f(1, 2, 3)"` parses with no error to a
`Call` serializing as `(call f 1 2 3)`; `"f()"` parses with no error to a
`Call` with an explicitly empty argument list, serializing as `(call f )`;
and a missing comma (`"f(1 2)"`) is a recorded grammar error while parsing
still continues to a `Call` tree and the closing parenthesis. -/
theorem c8_argument_lists :
    (ParseExpr 32 c8CallTokens = .ok (some c8CallTree, none) ∧
       sexpM c8CallTree = "(call f 1 2 3)") ∧
    (ParseExpr 32 c8EmptyTokens = .ok (some (.call (some (.ident "f")) []), none) ∧
       sexpM (.call (some (.ident "f")) []) = "(call f )") ∧
    ParseExpr 32 c8MissingCommaTokens =
      .ok (some (.call (some (.ident "f")) [some (.basicLit (.intv 1))]),
           some (.grammar [⟨4, "missing ',' in arguments (got Int)"⟩])) := by
  refine ⟨⟨rfl, ?_⟩, ⟨rfl, ?_⟩, rfl⟩
  · simp only [sexpM, sexpMO, sexpMList, c8CallTree, Tok.str, tokString, Lit.valStr]
    rfl
  · simp only [sexpM, sexpMO, sexpMList, Tok.str, tokString, Lit.valStr]
    rfl

/-- The tokens at which `parseOperand` can begin an operand (the match arms
of its Go `switch`); on any other token it falls to the
`expected operand` branch. -/
def startsOperand : Tok → Bool
  | .Identifier | .Int | .Float | .Imaginary | .String | .LeftParen => true
  | _ => false

/-- Token stream of `", 1"`: no token that can begin an operand comes first;
the offending token sits at offset 0 and the next token at offset 2. -/
def c9Tokens : List ScanTok :=
  [⟨.Comma, .nilv, 0, none⟩, ⟨.Int, .intv 1, 2, none⟩]

/-- C9 counterexample: the `expected operand` error is recorded after
`p.next()` has already advanced, so it carries the byte offset of the token
after the offending one: on `", 1"` the offending `Comma` sits at offset 0,
yet the recorded error carries offset 2. -/
theorem c9_expected_operand_offset :
    ParseExpr 32 c9Tokens =
      .ok (some (.bad (some (.pErr ⟨2, "expected operand"⟩))),
           some (.grammar [⟨2, "expected operand"⟩])) ∧
    (⟨2, "expected operand"⟩ : PError) ≠ ⟨0, "expected operand"⟩ :=
  ⟨rfl, by decide⟩

/-- C9 (amended): every recorded grammar error carries the scanner's current
byte offset at recording time (`p.error` reads `p.s.Offset`); for
`expect`-style errors that is the offending token's offset, but the
`expected operand` error is recorded after advancing, so it carries the
offset current after `p.next()` — the following token's offset (or the last
offset at end of input). -/
theorem c9_error_offsets :
    (∀ st msg, (perror st msg).1.err = st.err ++ [⟨st.s.Offset, msg⟩] ∧
       (perror st msg).2 = ⟨st.s.Offset, msg⟩) ∧
    (∀ st t, st.s.Token ≠ t →
       (pexpect st t).1.err = st.err ++
         [⟨st.s.Offset, "expected \"" ++ t.str ++ "\", found \"" ++ st.s.Token.str ++ "\""⟩]) ∧
    (∀ fuel lhs st, startsOperand st.s.Token = false →
       parseOperand (fuel + 1) lhs st =
         .ok (.bad (some (.pErr ⟨(pnext st).s.Offset, "expected operand"⟩)),
              (perror (pnext st) "expected operand").1)) := by
  refine ⟨fun st msg => ⟨rfl, rfl⟩, ?_, ?_⟩
  · intro st t h
    simp [pexpect, h, perror]
  · intro fuel lhs st hso
    rw [parseOperand]
    cases htok : st.s.Token <;> simp [startsOperand, htok] at hso ⊢ <;> rfl

/-- Witness for C9 (amended): the `expected operand` conjunct applied at the
concrete stream `", 1"`. -/
theorem c9_error_offsets_witness :
    parseOperand 32 false (pinit c9Tokens) =
      .ok (.bad (some (.pErr ⟨(pnext (pinit c9Tokens)).s.Offset, "expected operand"⟩)),
           (perror (pnext (pinit c9Tokens)) "expected operand").1) :=
  c9_error_offsets.2.2 31 false (pinit c9Tokens) rfl

mutual

/-- Trees whose nil nodes are only of the kinds whose `Sexp` method has a
nil-receiver guard: no nil `*Bad`, `*FuncLiteral`, `*CompLiteral`,
`*TableLiteral` or `*TableIndex` receiver occurs anywhere. -/
def nilGuarded : Expr → Bool
  | .binary _ l r => nilGuardedO l && nilGuardedO r
  | .binaryNil => true
  | .unary _ e => nilGuardedO e
  | .unaryNil => true
  | .bad _ => true
  | .badNil => false
  | .selector l _ => nilGuardedO l
  | .selectorNil => true
  | .basicLit _ => true
  | .basicLitNil => true
  | .funcLit _ _ _ _ _ => true
  | .funcLitNil => false
  | .compLit _ _ elements => nilGuardedL elements
  | .compLitNil => false
  | .tableLit _ colNames rows => nilGuardedL colNames && nilGuardedLL rows
  | .tableLitNil => false
  | .ident _ => true
  | .identNil => true
  | .call fn args => nilGuardedO fn && nilGuardedL args
  | .callNil => true
  | .tableIndex sub _ c1 c2 c3 r1 r2 r3 =>
      nilGuardedO sub && nilGuardedO c1 && nilGuardedO c2 && nilGuardedO c3 &&
      nilGuardedO r1 && nilGuardedO r2 && nilGuardedO r3
  | .tableIndexNil => false
termination_by structural e => e

/-- `nilGuarded`, lifted over a possibly-nil interface value. -/
def nilGuardedO : Option Expr → Bool
  | none => true
  | some e => nilGuarded e
termination_by structural o => o

/-- `nilGuarded`, lifted over an expression list. -/
def nilGuardedL : List (Option Expr) → Bool
  | [] => true
  | a :: rest => nilGuardedO a && nilGuardedL rest
termination_by structural l => l

/-- `nilGuarded`, lifted over a row list. -/
def nilGuardedLL : List (List (Option Expr)) → Bool
  | [] => true
  | row :: rest => nilGuardedL row && nilGuardedLL rest
termination_by structural l => l

end

mutual

/-- Combined size of an expression tree (strictly decreasing into every
child), used to drive induction over the serializer's nested recursion. -/
def esize : Expr → Nat
  | .binary _ l r => 1 + esizeO l + esizeO r
  | .binaryNil => 1
  | .unary _ e => 1 + esizeO e
  | .unaryNil => 1
  | .bad _ => 1
  | .badNil => 1
  | .selector l _ => 1 + esizeO l
  | .selectorNil => 1
  | .basicLit _ => 1
  | .basicLitNil => 1
  | .funcLit _ _ _ _ _ => 1
  | .funcLitNil => 1
  | .compLit _ _ elements => 1 + esizeL elements
  | .compLitNil => 1
  | .tableLit _ colNames rows => 1 + esizeL colNames + esizeLL rows
  | .tableLitNil => 1
  | .ident _ => 1
  | .identNil => 1
  | .call fn args => 1 + esizeO fn + esizeL args
  | .callNil => 1
  | .tableIndex sub _ c1 c2 c3 r1 r2 r3 =>
      1 + esizeO sub + esizeO c1 + esizeO c2 + esizeO c3 + esizeO r1 + esizeO r2 + esizeO r3
  | .tableIndexNil => 1
termination_by structural e => e

/-- `esize` over a possibly-nil interface value. -/
def esizeO : Option Expr → Nat
  | none => 1
  | some e => 1 + esize e
termination_by structural o => o

/-- `esize` over an expression list. -/
def esizeL : List (Option Expr) → Nat
  | [] => 1
  | a :: rest => 1 + esizeO a + esizeL rest
termination_by structural l => l

/-- `esize` over a row list. -/
def esizeLL : List (List (Option Expr)) → Nat
  | [] => 1
  | row :: rest => 1 + esizeL row + esizeLL rest
termination_by structural l => l
end

/-- `rangeSexpStr` never fails when each present component's serialization
succeeded. -/
theorem rangeSexpStr_total : ∀ a b c : Option (Option String),
    (a = none ∨ ∃ s, a = some (some s)) →
    (b = none ∨ ∃ s, b = some (some s)) →
    (c = none ∨ ∃ s, c = some (some s)) →
    (rangeSexpStr a b c).isSome = true := by
  intro a b c ha hb hc
  rcases ha with rfl | ⟨s1, rfl⟩ <;> rcases hb with rfl | ⟨s2, rfl⟩ <;>
    rcases hc with rfl | ⟨s3, rfl⟩ <;> simp [rangeSexpStr]

set_option maxHeartbeats 2000000 in
/-- Size-bounded totality of the serializer family on nil-guarded trees. -/
theorem sexp_total_aux : ∀ n : Nat,
    (∀ e, esize e ≤ n → nilGuarded e = true → (Expr.sexp e).isSome = true) ∧
    (∀ o, esizeO o ≤ n → nilGuardedO o = true → (exprSexp o).isSome = true) ∧
    (∀ l, esizeL l ≤ n → nilGuardedL l = true → (exprsStr l).isSome = true) ∧
    (∀ r, esizeLL r ≤ n → nilGuardedLL r = true → (rowsAcc r).isSome = true) := by
  intro n
  induction n with
  | zero =>
    refine ⟨?_, ?_, ?_, ?_⟩
    · intro e hs _; exact absurd hs (by cases e <;> simp [esize])
    · intro o hs _; exact absurd hs (by cases o <;> simp [esizeO])
    · intro l hs _; exact absurd hs (by cases l <;> simp [esizeL])
    · intro r hs _; exact absurd hs (by cases r <;> simp [esizeLL])
  | succ n ih =>
    obtain ⟨ihE, ihO, ihL, ihR⟩ := ih
    have hlift : ∀ ci : Option Expr, esizeO ci ≤ n → nilGuardedO ci = true →
        (liftSexp ci = none ∨ ∃ s, liftSexp ci = some (some s)) := by
      intro ci hci hgi
      cases ci with
      | none => exact Or.inl rfl
      | some e =>
        refine Or.inr ?_
        obtain ⟨s, hse⟩ := Option.isSome_iff_exists.mp
          (ihE e (by simp only [esizeO] at hci; omega) (by simpa [nilGuardedO] using hgi))
        exact ⟨s, by simp [liftSexp, hse]⟩
    refine ⟨?_, ?_, ?_, ?_⟩
    · intro e hs hg
      cases e with
      | binary op l r =>
        simp only [esize] at hs
        simp only [nilGuarded, Bool.and_eq_true] at hg
        obtain ⟨s1, h1⟩ := Option.isSome_iff_exists.mp (ihO l (by omega) hg.1)
        obtain ⟨s2, h2⟩ := Option.isSome_iff_exists.mp (ihO r (by omega) hg.2)
        simp [Expr.sexp, h1, h2]
      | binaryNil => simp [Expr.sexp]
      | unary op e =>
        simp only [esize] at hs
        simp only [nilGuarded] at hg
        obtain ⟨s1, h1⟩ := Option.isSome_iff_exists.mp (ihO e (by omega) hg)
        simp [Expr.sexp, h1]
      | unaryNil => simp [Expr.sexp]
      | bad err => simp [Expr.sexp]
      | badNil => simp [nilGuarded] at hg
      | selector l r =>
        simp only [esize] at hs
        simp only [nilGuarded] at hg
        obtain ⟨s1, h1⟩ := Option.isSome_iff_exists.mp (ihO l (by omega) hg)
        simp [Expr.sexp, h1]
      | selectorNil => simp [Expr.sexp]
      | basicLit v => simp [Expr.sexp]
      | basicLitNil => simp [Expr.sexp]
      | funcLit name recvName ptrRecv ty body =>
        simp only [Expr.sexp]
        split <;> simp
      | funcLitNil => simp [nilGuarded] at hg
      | compLit ty names elements =>
        simp only [esize] at hs
        simp only [nilGuarded] at hg
        obtain ⟨s1, h1⟩ := Option.isSome_iff_exists.mp (ihL elements (by omega) hg)
        simp [Expr.sexp, h1]
      | compLitNil => simp [nilGuarded] at hg
      | tableLit ty colNames rows =>
        simp only [esize] at hs
        simp only [nilGuarded, Bool.and_eq_true] at hg
        obtain ⟨s1, h1⟩ := Option.isSome_iff_exists.mp (ihL colNames (by omega) hg.1)
        obtain ⟨s2, h2⟩ := Option.isSome_iff_exists.mp (ihR rows (by omega) hg.2)
        simp [Expr.sexp, h1, h2]
      | tableLitNil => simp [nilGuarded] at hg
      | ident name => simp [Expr.sexp]
      | identNil => simp [Expr.sexp]
      | call fn args =>
        simp only [esize] at hs
        simp only [nilGuarded, Bool.and_eq_true] at hg
        obtain ⟨s1, h1⟩ := Option.isSome_iff_exists.mp (ihO fn (by omega) hg.1)
        obtain ⟨s2, h2⟩ := Option.isSome_iff_exists.mp (ihL args (by omega) hg.2)
        simp [Expr.sexp, h1, h2]
      | callNil => simp [Expr.sexp]
      | tableIndex sub colNames c1 c2 c3 r1 r2 r3 =>
        simp only [esize] at hs
        simp only [nilGuarded, Bool.and_eq_true] at hg
        obtain ⟨⟨⟨⟨⟨⟨hsub, hc1⟩, hc2⟩, hc3⟩, hr1⟩, hr2⟩, hr3⟩ := hg
        obtain ⟨s0, h0⟩ := Option.isSome_iff_exists.mp (ihO sub (by omega) hsub)
        have t1 := rangeSexpStr_total _ _ _ (hlift c1 (by omega) hc1)
          (hlift c2 (by omega) hc2) (hlift c3 (by omega) hc3)
        have t2 := rangeSexpStr_total _ _ _ (hlift r1 (by omega) hr1)
          (hlift r2 (by omega) hr2) (hlift r3 (by omega) hr3)
        obtain ⟨v1, hv1⟩ := Option.isSome_iff_exists.mp t1
        obtain ⟨v2, hv2⟩ := Option.isSome_iff_exists.mp t2
        simp [Expr.sexp, h0, hv1, hv2]
      | tableIndexNil => simp [nilGuarded] at hg
    · intro o hs hg
      cases o with
      | none => simp [exprSexp]
      | some e =>
        simp only [esizeO] at hs
        simp only [nilGuardedO] at hg
        simpa [exprSexp] using ihE e (by omega) hg
    · intro l hs hg
      cases l with
      | nil => simp [exprsStr]
      | cons a rest =>
        cases rest with
        | nil =>
          simp only [esizeL] at hs
          simp only [nilGuardedL, Bool.and_eq_true] at hg
          simpa [exprsStr] using ihO a (by omega) hg.1
        | cons b rest2 =>
          simp only [esizeL] at hs
          simp only [nilGuardedL, Bool.and_eq_true] at hg
          obtain ⟨s1, h1⟩ := Option.isSome_iff_exists.mp (ihO a (by omega) hg.1)
          obtain ⟨s2, h2⟩ := Option.isSome_iff_exists.mp
            (ihL (b :: rest2) (by simp only [esizeL] at *; omega)
              (by simp only [nilGuardedL, Bool.and_eq_true] at *
                  exact ⟨hg.2.1, hg.2.2⟩))
          simp [exprsStr, h1, h2]
    · intro r hs hg
      cases r with
      | nil => simp [rowsAcc]
      | cons row rest =>
        simp only [esizeLL] at hs
        simp only [nilGuardedLL, Bool.and_eq_true] at hg
        obtain ⟨s1, h1⟩ := Option.isSome_iff_exists.mp (ihL row (by omega) hg.1)
        obtain ⟨s2, h2⟩ := Option.isSome_iff_exists.mp (ihR rest (by omega) hg.2)
        simp [rowsAcc, h1, h2]

/-- C4 counterexample: the serializer is not total on a nil receiver of every
variant.  `(*Bad).Sexp`, `(*FuncLiteral).Sexp`, `(*CompLiteral).Sexp`,
`(*TableLiteral).Sexp` and `(*TableIndex).Sexp` have no nil-receiver check
and dereference their receiver, so on a typed-nil receiver each panics
(result `none` in this embedding) instead of returning a `nil<kind>`
sentinel. -/
theorem c4_unguarded_nil_receivers_panic :
    Expr.sexp .badNil = none ∧ Expr.sexp .funcLitNil = none ∧
    Expr.sexp .compLitNil = none ∧ Expr.sexp .tableLitNil = none ∧
    Expr.sexp .tableIndexNil = none := by
  refine ⟨?_, ?_, ?_, ?_, ?_⟩ <;> simp [Expr.sexp]

/-- C4 (amended): `exprSexp` maps a nil interface value to the `nilexpr`
sentinel, and the `Binary`, `Unary`, `Selector`, `BasicLiteral`, `Ident` and
`Call` `Sexp` methods return their distinct `nil<kind>` sentinel on a nil
receiver; consequently the serializer is total over every possibly-incomplete
tree whose nil nodes are only of those guarded kinds (nil receivers of the
five unguarded variants `Bad`, `FuncLiteral`, `CompLiteral`, `TableLiteral`,
`TableIndex` still panic). -/
theorem c4_serializer_nil_sentinels :
    exprSexp none = some "nilexpr" ∧
    Expr.sexp .binaryNil = some "nilbin" ∧
    Expr.sexp .unaryNil = some "nilunary" ∧
    Expr.sexp .selectorNil = some "nilsel" ∧
    Expr.sexp .basicLitNil = some "nillit" ∧
    Expr.sexp .identNil = some "nilident" ∧
    Expr.sexp .callNil = some "nilcall" ∧
    (∀ e, nilGuarded e = true → (Expr.sexp e).isSome = true) := by
  refine ⟨?_, ?_, ?_, ?_, ?_, ?_, ?_, ?_⟩
  · simp [exprSexp]
  · simp [Expr.sexp]
  · simp [Expr.sexp]
  · simp [Expr.sexp]
  · simp [Expr.sexp]
  · simp [Expr.sexp]
  · simp [Expr.sexp]
  · exact fun e hg => (sexp_total_aux (esize e)).1 e le_rfl hg

/-- Witness for C4 (amended): totality applied to a concrete incomplete tree
(a `Binary` with a nil interface left child and a typed-nil `*Unary` right
child). -/
theorem c4_serializer_nil_sentinels_witness :
    (Expr.sexp (.binary .Add none (some .unaryNil))).isSome = true :=
  c4_serializer_nil_sentinels.2.2.2.2.2.2.2 (.binary .Add none (some .unaryNil))
    (by simp [nilGuarded, nilGuardedO])

/-- Tokens not yet consumed, counting a loaded current token as half a step:
the measure that every scanner advance (under `ScInv`) does not increase and
every advance from a live token strictly decreases. -/
def scW (s : Scanner) : Nat := 2 * s.toks.length + (if 0 < s.r then 1 else 0)

/-- States the scanner can actually be in after an advance: once `r` is
non-positive the input is exhausted and the current token is `Unknown`. -/
def ScInv (s : Scanner) : Prop := s.r ≤ 0 → (s.toks = [] ∧ s.Token = .Unknown)

theorem skipComments_core : ∀ (l : List ScanTok) (s : Scanner), l = s.toks →
    ((skipComments l s).toks.length < l.length ∧ (skipComments l s).r = 1) ∨
    ((skipComments l s).toks = [] ∧ (skipComments l s).r = -1 ∧
      (skipComments l s).Token = .Unknown) := by
  intro l
  induction l with
  | nil =>
    intro s h
    exact Or.inr ⟨by simp [skipComments, exhaustS, ← h], rfl, rfl⟩
  | cons t rest ih =>
    intro s h
    rw [skipComments]
    by_cases hc : t.tok = .Comment
    · simp only [hc, if_pos rfl]
      rcases ih (loadTok s t rest) rfl with ⟨hlen, hr⟩ | hright
      · exact Or.inl ⟨Nat.lt_trans hlen (by simp), hr⟩
      · exact Or.inr hright
    · simp only [if_neg hc]
      exact Or.inl ⟨by simp [loadTok], rfl⟩

theorem pnextS_spec (s : Scanner) :
    ScInv (pnextS s) ∧ scW (pnextS s) ≤ scW s ∧ (0 < s.r → scW (pnextS s) < scW s) := by
  rcases skipComments_core s.toks s rfl with ⟨hlen, hr⟩ | ⟨ht, hr, htok⟩
  · unfold pnextS at *
    refine ⟨fun h0 => absurd (hr ▸ h0) (by norm_num), ?_, ?_⟩
    · unfold scW
      rw [hr]
      norm_num
      omega
    · intro hpos
      unfold scW
      rw [hr, if_pos hpos]
      norm_num
      omega
  · unfold pnextS at *
    refine ⟨fun _ => ⟨ht, htok⟩, ?_, ?_⟩
    · unfold scW
      rw [ht, hr]
      norm_num
    · intro hpos
      unfold scW
      rw [ht, hr, if_pos hpos]
      norm_num

theorem pnext_spec (st : PState) :
    ScInv (pnext st).s ∧ scW (pnext st).s ≤ scW st.s ∧
      (0 < st.s.r → scW (pnext st).s < scW st.s) :=
  pnextS_spec st.s

/-- `pexpect` leaves the scanner untouched. -/
theorem pexpect_s (st : PState) (t : Tok) : (pexpect st t).1.s = st.s := by
  unfold pexpect perror
  split <;> rfl

/-- `perror` leaves the scanner untouched. -/
theorem perror_s (st : PState) (m : String) : (perror st m).1.s = st.s := rfl

/-- `expectCommaOr` leaves the scanner untouched. -/
theorem expectCommaOr_s (st : PState) (t : Tok) (m : String) :
    (expectCommaOr st t m).1.s = st.s := by
  unfold expectCommaOr perror
  split
  · rfl
  · split <;> rfl

/-- A live token (any kind other than `Unknown`) means the source is not yet
exhausted, under the scanner invariant. -/
theorem live_token_pos_r {s : Scanner} (hi : ScInv s) (h : s.Token ≠ .Unknown) : 0 < s.r := by
  by_contra hr
  exact h (hi (by omega)).2

/-- Under the invariant, a live token also means positive measure. -/
theorem live_token_scW {s : Scanner} (hi : ScInv s) (h : s.Token ≠ .Unknown) : 1 ≤ scW s := by
  have := live_token_pos_r hi h
  unfold scW
  rw [if_pos this]
  omega

/-- Under the invariant, measure zero forces a non-positive `r` (and hence an
`Unknown` current token). -/
theorem scW_zero_unknown {s : Scanner} (hi : ScInv s) (h : scW s = 0) : s.Token = .Unknown := by
  unfold scW at h
  by_cases hr : 0 < s.r
  · rw [if_pos hr] at h
    omega
  · exact (hi (by omega)).2

/-- A loop/function result that did not run out of fuel, whose success state
keeps the scanner invariant and does not increase the measure. -/
def resOk {α : Type} (st : PState) (r : PRes (α × PState)) : Prop :=
  r ≠ .nofuel ∧ ∀ a st', r = .ok (a, st') → ScInv st'.s ∧ scW st'.s ≤ scW st.s

/-- `resOk`, and additionally the success state strictly decreases the
measure whenever the entry state still had a live current token. -/
def resOkS {α : Type} (st : PState) (r : PRes (α × PState)) : Prop :=
  r ≠ .nofuel ∧ ∀ a st', r = .ok (a, st') →
    ScInv st'.s ∧ scW st'.s ≤ scW st.s ∧ (0 < st.s.r → scW st'.s < scW st.s)

theorem resOkS_ok {α : Type} (st : PState) (x : α) (stY : PState)
    (h1 : ScInv stY.s) (h2 : scW stY.s ≤ scW st.s)
    (h3 : 0 < st.s.r → scW stY.s < scW st.s) :
    resOkS st (.ok (x, stY)) := by
  refine ⟨by simp, ?_⟩
  intro a st2 heq
  rw [PRes.ok.injEq, Prod.mk.injEq] at heq
  obtain ⟨-, h⟩ := heq
  rw [← h]
  exact ⟨h1, h2, h3⟩

theorem resOk_ok {α : Type} (st : PState) (x : α) (stY : PState)
    (h1 : ScInv stY.s) (h2 : scW stY.s ≤ scW st.s) :
    resOk st (.ok (x, stY)) := by
  refine ⟨by simp, ?_⟩
  intro a st2 heq
  rw [PRes.ok.injEq, Prod.mk.injEq] at heq
  obtain ⟨-, h⟩ := heq
  rw [← h]
  exact ⟨h1, h2⟩

theorem resOkS_panic {α : Type} (st : PState) (m : String) :
    resOkS st (.panicked m : PRes (α × PState)) :=
  ⟨by simp, fun a st' heq => by cases heq⟩

theorem resOk_panic {α : Type} (st : PState) (m : String) :
    resOk st (.panicked m : PRes (α × PState)) :=
  ⟨by simp, fun a st' heq => by cases heq⟩

/-- `parseIdent` cannot run out of fuel; on success it advances the scanner
once (through `pnext`), preserving the invariant and the measure bound. -/
theorem parseIdent_spec (st : PState) (hi : ScInv st.s) : resOkS st (parseIdent st) := by
  unfold parseIdent
  rcases hpe : pexpect st .Identifier with ⟨st1, met⟩
  have hs1 : st1.s = st.s := by
    have := pexpect_s st .Identifier
    rw [hpe] at this
    exact this
  simp only
  have hiN : ScInv (pnext st1).s := (pnext_spec st1).1
  have hleN := (pnext_spec st1).2.1
  have hltN := (pnext_spec st1).2.2
  rw [hs1] at hleN hltN
  split
  · split
    · exact resOkS_ok _ _ _ hiN hleN hltN
    · exact resOkS_panic _ _
  · exact resOkS_ok _ _ _ hiN hleN hltN

/-- Fuel 9·W+11 suffices for `parseExpr` at measure-`n`-bounded states. -/
def OkE (n : Nat) : Prop := ∀ st, ScInv st.s → scW st.s ≤ n →
  ∀ f lhs, 9 * scW st.s + 11 ≤ f → resOkS st (parseExpr f lhs st)

/-- Fuel 9·W+10 suffices for `parseBinaryExpr` (at minimum precedence ≥ 1). -/
def OkB (n : Nat) : Prop := ∀ st, ScInv st.s → scW st.s ≤ n →
  ∀ f lhs minPrec, 1 ≤ minPrec → 9 * scW st.s + 10 ≤ f →
    resOkS st (parseBinaryExpr f lhs minPrec st)

/-- Fuel `prec.toNat`+9·W+4 suffices for `binLevels`. -/
def OkL (n : Nat) : Prop := ∀ st, ScInv st.s → scW st.s ≤ n →
  ∀ f x prec minPrec, 1 ≤ minPrec → prec.toNat + 9 * scW st.s + 4 ≤ f →
    resOk st (binLevels f x prec minPrec st)

/-- Fuel 9·W+3 suffices for `binRun` (at level ≥ 1). -/
def OkR (n : Nat) : Prop := ∀ st, ScInv st.s → scW st.s ≤ n →
  ∀ f x prec, 1 ≤ prec → 9 * scW st.s + 3 ≤ f → resOk st (binRun f x prec st)

/-- Fuel 9·W+6 suffices for `parseUnaryExpr`. -/
def OkU (n : Nat) : Prop := ∀ st, ScInv st.s → scW st.s ≤ n →
  ∀ f lhs, 9 * scW st.s + 6 ≤ f → resOkS st (parseUnaryExpr f lhs st)

/-- Fuel 9·W+5 suffices for `parsePrimaryExpr`. -/
def OkP (n : Nat) : Prop := ∀ st, ScInv st.s → scW st.s ≤ n →
  ∀ f lhs, 9 * scW st.s + 5 ≤ f → resOkS st (parsePrimaryExpr f lhs st)

/-- Fuel 9·W+3 suffices for `parseOperand`. -/
def OkO (n : Nat) : Prop := ∀ st, ScInv st.s → scW st.s ≤ n →
  ∀ f lhs, 9 * scW st.s + 3 ≤ f → resOkS st (parseOperand f lhs st)

/-- Fuel 9·W+13 suffices for `parseArgs`. -/
def OkA (n : Nat) : Prop := ∀ st, ScInv st.s → scW st.s ≤ n →
  ∀ f, 9 * scW st.s + 13 ≤ f → resOk st (parseArgs f st)

/-- Fuel 9·W+12 suffices for the argument loop. -/
def OkAL (n : Nat) : Prop := ∀ st, ScInv st.s → scW st.s ≤ n →
  ∀ f args, 9 * scW st.s + 12 ≤ f → resOk st (argsLoop f args st)

/-- The whole family of fuel bounds at level `n`. -/
def OkAll (n : Nat) : Prop :=
  OkE n ∧ OkB n ∧ OkL n ∧ OkR n ∧ OkU n ∧ OkP n ∧ OkO n ∧ OkA n ∧ OkAL n

set_option maxHeartbeats 2000000 in
/-- Induction step for `parseOperand`: every branch advances the scanner at
least once, and the parenthesized branch recurses at a strictly smaller
measure. -/
theorem stepO (n : Nat) (ih : ∀ m, m < n → OkAll m) : OkO n := by
  intro st hi hw f lhs hf
  obtain ⟨f', rfl⟩ : ∃ f', f = f' + 1 := ⟨f - 1, by omega⟩
  have hnslack : 9 * scW st.s + 2 ≤ f' := by omega
  cases htok : st.s.Token
  all_goals simp only [parseOperand, htok]
  case Identifier => exact parseIdent_spec st hi
  case LeftParen =>
    have hr : 0 < st.s.r := live_token_pos_r hi (by rw [htok]; simp)
    have hw1 : scW (pnext st).s < scW st.s := (pnext_spec st).2.2 hr
    have hiw : 1 ≤ scW st.s := live_token_scW hi (by rw [htok]; simp)
    have hE : OkE (scW st.s - 1) := (ih (scW st.s - 1) (by omega)).1
    have hres := hE (pnext st) (pnext_spec st).1 (by omega) f' false (by omega)
    rcases hx : parseExpr f' false (pnext st) with ⟨e, st2⟩ | m | _
    · obtain ⟨hi2, hle2⟩ := (hres.2 e st2 hx).1,
        (hres.2 e st2 hx).2.1
      simp only [hx]
      have hsP : (pexpect st2 .RightParen).1.s = st2.s := pexpect_s st2 .RightParen
      refine resOkS_ok _ _ _ ?_ ?_ ?_
      · rw [hsP]; exact hi2
      · rw [hsP]; omega
      · intro _; rw [hsP]; omega
    · simp only [hx]; exact resOkS_panic _ _
    · exact absurd hx (by intro hc; exact hres.1 (by rw [hc]))
  case Int =>
    exact resOkS_ok _ _ _ (pnext_spec st).1 (pnext_spec st).2.1 (pnext_spec st).2.2
  case Float =>
    exact resOkS_ok _ _ _ (pnext_spec st).1 (pnext_spec st).2.1 (pnext_spec st).2.2
  case Imaginary =>
    exact resOkS_ok _ _ _ (pnext_spec st).1 (pnext_spec st).2.1 (pnext_spec st).2.2
  case String =>
    exact resOkS_ok _ _ _ (pnext_spec st).1 (pnext_spec st).2.1 (pnext_spec st).2.2
  all_goals
    refine resOkS_ok _ _ _ ?_ ?_ ?_ <;>
      simp only [show ((perror (pnext st) "expected operand").1).s = (pnext st).s from rfl]
  all_goals first
    | exact (pnext_spec st).1
    | exact (pnext_spec st).2.1
    | exact (pnext_spec st).2.2

set_option maxHeartbeats 2000000 in
/-- Induction step for `parsePrimaryExpr`: the operand consumes at least one
token before any argument list is parsed; suffixes other than a call return
or panic immediately. -/
theorem stepP (n : Nat) (ih : ∀ m, m < n → OkAll m) (hO : OkO n) : OkP n := by
  intro st hi hw f lhs hf
  obtain ⟨f', rfl⟩ : ∃ f', f = f' + 1 := ⟨f - 1, by omega⟩
  simp only [parsePrimaryExpr]
  have hop := hO st hi hw f' lhs (by omega)
  rcases hx : parseOperand f' lhs st with ⟨⟨x, st1⟩⟩ | m | _
  · have hb := hop.2 x st1 hx
    simp only [hx]
    cases htok : st1.s.Token
    all_goals simp only [htok]
    case Period =>
      cases htok2 : (pnext st1).s.Token
      all_goals simp only [htok2]
      all_goals exact resOkS_panic _ _
    case LeftBracket => exact resOkS_panic _ _
    case LeftBrace => exact resOkS_panic _ _
    case LeftParen =>
      by_cases hr : 0 < st.s.r
      · have hiw : 1 ≤ scW st.s := by unfold scW; rw [if_pos hr]; omega
        have hw1 : scW st1.s < scW st.s := hb.2.2 hr
        have hA : OkA (scW st.s - 1) := (ih (scW st.s - 1) (by omega)).2.2.2.2.2.2.2.1
        have hargs := hA st1 hb.1 (by omega) f' (by omega)
        rcases hy : parseArgs f' st1 with ⟨⟨args, st2⟩⟩ | m | _
        · have hb2 := hargs.2 args st2 hy
          simp only [hy]
          exact resOkS_ok _ _ _ hb2.1 (by omega) (fun _ => by omega)
        · simp only [hy]; exact resOkS_panic _ _
        · exact absurd hy (by intro hc; exact hargs.1 (by rw [hc]))
      · exfalso
        have htoks : st.s.toks = [] := (hi (by omega)).1
        have hw0 : scW st.s = 0 := by unfold scW; rw [if_neg hr, htoks]; simp
        have h0 : scW st1.s = 0 := by have := hb.2.1; omega
        have := scW_zero_unknown hb.1 h0
        rw [htok] at this
        exact absurd this (by simp)
    all_goals exact resOkS_ok _ _ _ hb.1 hb.2.1 hb.2.2
  · simp only [hx]; exact resOkS_panic _ _
  · exact absurd hx (by intro hc; exact hop.1 (by rw [hc]))

/-- Common recursive tail of `parseUnaryExpr`'s operator branches: the
operator has been consumed, the operand is parsed at a strictly smaller
measure, and the result is rewrapped. -/
theorem unary_rec_ok (n : Nat) (ih : ∀ m, m < n → OkAll m) (st : PState)
    (hi : ScInv st.s) (hw : scW st.s ≤ n) (hr : 0 < st.s.r) (f' : Nat)
    (hf : 9 * scW st.s + 5 ≤ f') (g : Expr → Expr) :
    resOkS st (match parseUnaryExpr f' false (pnext st) with
      | .ok (x, st2) => .ok (g x, st2)
      | .panicked m => .panicked m
      | .nofuel => .nofuel) := by
  have hiw : 1 ≤ scW st.s := by unfold scW; rw [if_pos hr]; omega
  have hw1 : scW (pnext st).s < scW st.s := (pnext_spec st).2.2 hr
  have hU : OkU (scW st.s - 1) := (ih (scW st.s - 1) (by omega)).2.2.2.2.1
  have hrec := hU (pnext st) (pnext_spec st).1 (by omega) f' false (by omega)
  rcases hx : parseUnaryExpr f' false (pnext st) with ⟨⟨x, st2⟩⟩ | m | _
  · have hb := hrec.2 x st2 hx
    simp only [hx]
    exact resOkS_ok _ _ _ hb.1 (by omega) (fun _ => by omega)
  · simp only [hx]; exact resOkS_panic _ _
  · exact absurd hx (by intro hc; exact hrec.1 (by rw [hc]))

set_option maxHeartbeats 2000000 in
/-- Induction step for `parseUnaryExpr`. -/
theorem stepU (n : Nat) (ih : ∀ m, m < n → OkAll m) (hP : OkP n) : OkU n := by
  intro st hi hw f lhs hf
  obtain ⟨f', rfl⟩ : ∃ f', f = f' + 1 := ⟨f - 1, by omega⟩
  simp only [parseUnaryExpr]
  cases htok : st.s.Token
  case Add =>
    have hr : 0 < st.s.r := live_token_pos_r hi (by rw [htok]; simp)
    cases herr : (pnext st).s.err
    all_goals simp only [htok, herr]
    · exact unary_rec_ok n ih st hi hw hr f' (by omega) (fun x => .unary .Add (some x))
    · exact resOkS_ok _ _ _ (pnext_spec st).1 (pnext_spec st).2.1 (pnext_spec st).2.2
  case Sub =>
    have hr : 0 < st.s.r := live_token_pos_r hi (by rw [htok]; simp)
    cases herr : (pnext st).s.err
    all_goals simp only [htok, herr]
    · exact unary_rec_ok n ih st hi hw hr f' (by omega) (fun x => .unary .Sub (some x))
    · exact resOkS_ok _ _ _ (pnext_spec st).1 (pnext_spec st).2.1 (pnext_spec st).2.2
  case Not =>
    have hr : 0 < st.s.r := live_token_pos_r hi (by rw [htok]; simp)
    cases herr : (pnext st).s.err
    all_goals simp only [htok, herr]
    · exact unary_rec_ok n ih st hi hw hr f' (by omega) (fun x => .unary .Not (some x))
    · exact resOkS_ok _ _ _ (pnext_spec st).1 (pnext_spec st).2.1 (pnext_spec st).2.2
  case Mul =>
    have hr : 0 < st.s.r := live_token_pos_r hi (by rw [htok]; simp)
    simp only [htok]
    exact unary_rec_ok n ih st hi hw hr f' (by omega) (fun x => .unary .Mul (some x))
  all_goals simp only [htok]
  all_goals exact hP st hi hw f' lhs (by omega)

/-- Weaken a loop result's entry state to an earlier state of no smaller
measure. -/
theorem resOk_weaken {α : Type} (st st2 : PState) (r : PRes (α × PState))
    (h : scW st2.s ≤ scW st.s) (hr : resOk st2 r) : resOk st r :=
  ⟨hr.1, fun a st' heq => ⟨(hr.2 a st' heq).1, le_trans (hr.2 a st' heq).2 h⟩⟩

/-- Strengthen a plain result bound into a strict one, given that the entry
state was already reached by a strict decrease. -/
theorem resOkS_of_resOk {α : Type} (st st1 : PState) (r : PRes (α × PState))
    (hle : scW st1.s ≤ scW st.s) (hstrict : 0 < st.s.r → scW st1.s < scW st.s)
    (hr : resOk st1 r) : resOkS st r :=
  ⟨hr.1, fun a st' heq =>
    ⟨(hr.2 a st' heq).1, le_trans (hr.2 a st' heq).2 hle,
     fun hpos => lt_of_le_of_lt (hr.2 a st' heq).2 (hstrict hpos)⟩⟩

/-- Every token's precedence lies between 0 and 5. -/
theorem tokPrecedence_range (t : Tok) : 0 ≤ tokPrecedence t ∧ tokPrecedence t ≤ 5 := by
  cases t <;> simp [tokPrecedence]

/-- A token of positive precedence is a live operator, not `Unknown`. -/
theorem pos_prec_not_unknown {t : Tok} (h : 1 ≤ t.precedence) : t ≠ .Unknown := by
  intro hu
  rw [hu] at h
  simp [Tok.precedence, tokPrecedence] at h

set_option maxHeartbeats 2000000 in
/-- Induction step for `binRun`: each consuming iteration eats the operator
token before recursing. -/
theorem stepR (n : Nat) (ih : ∀ m, m < n → OkAll m) : OkR n := by
  intro st hi hw f x prec hp hf
  obtain ⟨f', rfl⟩ : ∃ f', f = f' + 1 := ⟨f - 1, by omega⟩
  simp only [binRun]
  by_cases hne : st.s.Token.precedence ≠ prec
  · rw [if_pos hne]
    exact resOk_ok st x st hi le_rfl
  · rw [if_neg hne]
    push_neg at hne
    have hlive : st.s.Token ≠ .Unknown := pos_prec_not_unknown (by omega)
    have hr : 0 < st.s.r := live_token_pos_r hi hlive
    have hiw : 1 ≤ scW st.s := live_token_scW hi hlive
    have hw1 : scW (pnext st).s < scW st.s := (pnext_spec st).2.2 hr
    have hB : OkB (scW st.s - 1) := (ih (scW st.s - 1) (by omega)).2.1
    have hbin := hB (pnext st) (pnext_spec st).1 (by omega) f' false (prec + 1)
      (by omega) (by omega)
    rcases hx : parseBinaryExpr f' false (prec + 1) (pnext st) with ⟨⟨y, st2⟩⟩ | m | _
    · have hb := hbin.2 y st2 hx
      simp only [hx]
      have hR2 : OkR (scW st.s - 1) := (ih (scW st.s - 1) (by omega)).2.2.2.1
      have hrun := hR2 st2 hb.1 (by omega) f' (.binary st.s.Token (some x) (some y)) prec
        hp (by omega)
      exact resOk_weaken st st2 _ (by omega) hrun
    · simp only [hx]; exact resOk_panic _ _
    · exact absurd hx (by intro hc; exact hbin.1 (by rw [hc]))

set_option maxHeartbeats 2000000 in
/-- Induction step for `binLevels`: an inner induction on the precedence
level, which decreases by one per iteration while the measure does not
grow. -/
theorem stepL (n : Nat) (ih : ∀ m, m < n → OkAll m) (hR : OkR n) : OkL n := by
  intro st hi hw f x prec minPrec hm hf
  have main : ∀ k (prec : Int), prec.toNat ≤ k → ∀ st, ScInv st.s → scW st.s ≤ n →
      ∀ f x, prec.toNat + 9 * scW st.s + 4 ≤ f →
        resOk st (binLevels f x prec minPrec st) := by
    intro k
    induction k with
    | zero =>
      intro prec hpk st hi hw f x hf
      obtain ⟨f', rfl⟩ : ∃ f', f = f' + 1 := ⟨f - 1, by omega⟩
      simp only [binLevels]
      rw [if_neg (by omega)]
      exact resOk_ok st x st hi le_rfl
    | succ k ihk =>
      intro prec hpk st hi hw f x hf
      obtain ⟨f', rfl⟩ : ∃ f', f = f' + 1 := ⟨f - 1, by omega⟩
      simp only [binLevels]
      by_cases hge : prec ≥ minPrec
      · rw [if_pos hge]
        have hrun := hR st hi hw f' x prec (le_trans hm hge) (by omega)
        rcases hx : binRun f' x prec st with ⟨⟨x1, st1⟩⟩ | m | _
        · have hb := hrun.2 x1 st1 hx
          simp only [hx]
          have hrec := ihk (prec - 1) (by omega) st1 hb.1 (by omega) f' x1 (by omega)
          exact resOk_weaken st st1 _ hb.2 hrec
        · simp only [hx]; exact resOk_panic _ _
        · exact absurd hx (by intro hc; exact hrun.1 (by rw [hc]))
      · rw [if_neg hge]
        exact resOk_ok st x st hi le_rfl
  exact main prec.toNat prec le_rfl st hi hw f x hf

set_option maxHeartbeats 2000000 in
/-- Induction step for `parseBinaryExpr`. -/
theorem stepB (n : Nat) (hU : OkU n) (hL : OkL n) : OkB n := by
  intro st hi hw f lhs minPrec hm hf
  obtain ⟨f', rfl⟩ : ∃ f', f = f' + 1 := ⟨f - 1, by omega⟩
  simp only [parseBinaryExpr]
  have hu := hU st hi hw f' lhs (by omega)
  rcases hx : parseUnaryExpr f' lhs st with ⟨⟨x1, st1⟩⟩ | m | _
  · have hb := hu.2 x1 st1 hx
    simp only [hx]
    have hrange := tokPrecedence_range st1.s.Token
    have hlev := hL st1 hb.1 (by omega) f' x1 st1.s.Token.precedence minPrec hm
      (by have : (st1.s.Token.precedence).toNat ≤ 5 := by
            simp only [Tok.precedence] at *
            omega
          omega)
    exact resOkS_of_resOk st st1 _ hb.2.1 hb.2.2 hlev
  · simp only [hx]; exact resOkS_panic _ _
  · exact absurd hx (by intro hc; exact hu.1 (by rw [hc]))

/-- Induction step for `parseExpr`. -/
theorem stepE (n : Nat) (hB : OkB n) : OkE n := by
  intro st hi hw f lhs hf
  obtain ⟨f', rfl⟩ : ∃ f', f = f' + 1 := ⟨f - 1, by omega⟩
  simp only [parseExpr]
  exact hB st hi hw f' lhs 1 le_rfl (by omega)

set_option maxHeartbeats 2000000 in
/-- Induction step for the argument loop: the guard requires a live source,
each iteration parses one expression (consuming at least one token) before
looping, and an exhausted source exits at once. -/
theorem stepAL (n : Nat) (ih : ∀ m, m < n → OkAll m) (hE : OkE n) : OkAL n := by
  intro st hi hw f args hf
  obtain ⟨f', rfl⟩ : ∃ f', f = f' + 1 := ⟨f - 1, by omega⟩
  simp only [argsLoop]
  by_cases hg : st.s.Token ≠ .RightParen ∧ st.s.r > 0
  · rw [if_pos hg]
    have hr : 0 < st.s.r := hg.2
    have hiw : 1 ≤ scW st.s := by unfold scW; rw [if_pos hr]; omega
    have he := hE st hi hw f' false (by omega)
    rcases hx : parseExpr f' false st with ⟨⟨e, st1⟩⟩ | m | _
    · have hb := he.2 e st1 hx
      have hw1 : scW st1.s < scW st.s := hb.2.2 hr
      simp only [hx]
      rcases hec : expectCommaOr st1 .RightParen "arguments" with ⟨st2, cont⟩
      have hs2 : st2.s = st1.s := by
        have := expectCommaOr_s st1 .RightParen "arguments"
        rw [hec] at this
        exact this
      simp only [hec]
      cases cont
      · simp only [Bool.false_eq_true, if_neg (by simp : ¬False)]
        refine resOk_ok st _ st2 ?_ ?_
        · rw [hs2]; exact hb.1
        · rw [hs2]; omega
      · simp only [if_pos rfl]
        have hiw2 : ScInv (pnext st2).s := (pnext_spec st2).1
        have hle2 : scW (pnext st2).s ≤ scW st1.s := by
          have := (pnext_spec st2).2.1
          rw [hs2] at this
          exact this
        have hAL : OkAL (scW st.s - 1) := (ih (scW st.s - 1) (by omega)).2.2.2.2.2.2.2.2
        have hrec := hAL (pnext st2) hiw2 (by omega) f' (args ++ [some e]) (by omega)
        exact resOk_weaken st (pnext st2) _ (by omega) hrec
    · simp only [hx]; exact resOk_panic _ _
    · exact absurd hx (by intro hc; exact he.1 (by rw [hc]))
  · rw [if_neg hg]
    exact resOk_ok st args st hi le_rfl

set_option maxHeartbeats 2000000 in
/-- Induction step for `parseArgs`. -/
theorem stepA (n : Nat) (hAL : OkAL n) : OkA n := by
  intro st hi hw f hf
  obtain ⟨f', rfl⟩ : ∃ f', f = f' + 1 := ⟨f - 1, by omega⟩
  simp only [parseArgs]
  rcases hpe : pexpect st .LeftParen with ⟨st1, b⟩
  have hs1 : st1.s = st.s := by
    have := pexpect_s st .LeftParen
    rw [hpe] at this
    exact this
  simp only [hpe]
  have hiw2 : ScInv (pnext st1).s := (pnext_spec st1).1
  have hle2 : scW (pnext st1).s ≤ scW st.s := by
    have := (pnext_spec st1).2.1
    rw [hs1] at this
    exact this
  have hal := hAL (pnext st1) hiw2 (by omega) f' [] (by omega)
  rcases hx : argsLoop f' [] (pnext st1) with ⟨⟨args, st3⟩⟩ | m | _
  · have hb := hal.2 args st3 hx
    simp only [hx]
    rcases hpe2 : pexpect st3 .RightParen with ⟨st4, b2⟩
    have hs4 : st4.s = st3.s := by
      have := pexpect_s st3 .RightParen
      rw [hpe2] at this
      exact this
    simp only [hpe2]
    refine resOk_ok st args (pnext st4) (pnext_spec st4).1 ?_
    have := (pnext_spec st4).2.1
    rw [hs4] at this
    omega
  · simp only [hx]; exact resOk_panic _ _
  · exact absurd hx (by intro hc; exact hal.1 (by rw [hc]))

/-- The whole fuel-bound family holds at every level, by strong induction on
the measure bound. -/
theorem okAll_holds : ∀ n, OkAll n := by
  intro n
  induction n using Nat.strong_induction_on with
  | _ n ih =>
    have hO := stepO n ih
    have hP := stepP n ih hO
    have hU := stepU n ih hP
    have hR := stepR n ih
    have hL := stepL n ih hR
    have hB := stepB n hU hL
    have hE := stepE n hB
    have hAL := stepAL n ih hE
    have hA := stepA n hAL
    exact ⟨hE, hB, hL, hR, hU, hP, hO, hA, hAL⟩

/-- C10: a parse of any finite token stream terminates within fuel linear in
the length of the input — every loop either consumes at least one token per
iteration or exits, so `ParseExpr` with `18·length + 11` fuel never exhausts
it (it returns a result, or a panic for the unsupported-construct cases) —
and the argument-list loop exits immediately once the token source is
exhausted (`p.s.r ≤ 0`). -/
theorem c10_parse_bounded_by_input :
    (∀ toks : List ScanTok, ParseExpr (18 * toks.length + 11) toks ≠ .nofuel) ∧
    (∀ (f : Nat) args st, st.s.r ≤ 0 → argsLoop (f + 1) args st = .ok (args, st)) := by
  constructor
  · intro toks
    cases toks with
    | nil => simp [ParseExpr, Scanner.NextE]
    | cons t rest =>
      rw [ParseExpr]
      cases hl : t.lerr with
      | some m => simp [Scanner.NextE, hl]
      | none =>
        simp only [Scanner.NextE, hl, Option.map_none]
        have hscw : scW ({ toks := t :: rest } : Scanner).NextS = 2 * rest.length + 1 := by
          simp [scW, Scanner.NextS, loadTok]
        have hinv : ScInv ({ toks := t :: rest } : Scanner).NextS := by
          intro h0
          simp [Scanner.NextS, loadTok] at h0
        have hE := (okAll_holds (2 * rest.length + 1)).1
          ⟨({ toks := t :: rest } : Scanner).NextS, []⟩ hinv (by rw [hscw])
          (18 * (t :: rest).length + 11) false (by rw [hscw]; simp; omega)
        rcases hx : parseExpr (18 * (t :: rest).length + 11) false
            ⟨({ toks := t :: rest } : Scanner).NextS, []⟩ with ⟨⟨x, st'⟩⟩ | m | _
        · simp [hx]
        · simp [hx]
        · exact absurd hx (by intro hc; exact hE.1 (by rw [hc]))
  · intro f args st h
    rw [argsLoop]
    rw [if_neg (by intro hc; exact absurd hc.2 (by omega))]

/-- Witness for C10: the fuel bound applied at the one-token stream `"1"`
(fuel 29 = 18·1 + 11), and the loop-exit conjunct applied at a concrete
exhausted scanner state. -/
theorem c10_parse_bounded_by_input_witness :
    ParseExpr 29 [⟨.Int, .intv 1, 0, none⟩] ≠ .nofuel ∧
    argsLoop 5 [] ⟨⟨[], .Unknown, .nilv, 0, some .eof, -1⟩, []⟩ =
      .ok ([], ⟨⟨[], .Unknown, .nilv, 0, some .eof, -1⟩, []⟩) :=
  ⟨c10_parse_bounded_by_input.1 [⟨.Int, .intv 1, 0, none⟩],
   c10_parse_bounded_by_input.2 4 [] ⟨⟨[], .Unknown, .nilv, 0, some .eof, -1⟩, []⟩
     (by norm_num)⟩
